import Mathlib

/-!
Verification of the dependency resolver library: a tree of nodes, each
carrying a string identifier and a list of child dependencies; a DFS
post-order flattening that yields a build order, and a DFS duplicate
identifier scan used as cycle detection.
-/

set_option maxHeartbeats 1000000

/-- A dependency node: an identifier and a list of child dependencies.
Mirrors the Rust struct Node with fields id and deps. -/
inductive Node : Type where
  | mk (id : String) (deps : List Node)
deriving Repr

/-- The identifier of a node. -/
def Node.id : Node → String
  | .mk i _ => i

/-- The child dependencies of a node. -/
def Node.deps : Node → List Node
  | .mk _ d => d

/-- Tracker of visited vertex identifiers during cycle detection.  The Rust
code uses a HashSet of strings; only membership tests and inserts are
performed on it, so a list queried with contains is a faithful model. -/
abbrev NodeIdTracker : Type := List String

mutual

/-- DFS walk through the graph, as in the Rust method Node.walk: a node
with no dependencies yields none, otherwise the children are processed in
declared order, each contributing its own flattened walk followed by its
identifier. -/
def Node.walk : Node → Option (List String)
  | .mk _ deps =>
    if deps.isEmpty then
      none
    else
      some (walkFold deps)

/-- The loop body of Node.walk: the stack accumulated over the list of
children, in order. -/
def walkFold : List Node → List String
  | [] => []
  | d :: ds => (match d.walk with
      | some l => l
      | none => []) ++ [d.id] ++ walkFold ds

end

/-- Return the list of all the dependencies to build, as in the Rust method
Node.get_dependancy_list: the walk result, or the empty list when the walk
yields none. -/
def Node.get_dependancy_list (n : Node) : List String :=
  match n.walk with
  | some l => l
  | none => []

mutual

/-- Walk through the graph and stop at the first repeated identifier, as in
the Rust method Node.detect_cycles.  The tracker of visited identifiers is
threaded as state, since the Rust code mutates it in place. -/
def Node.detect_cycles : Node → NodeIdTracker → Option Bool × NodeIdTracker
  | .mk i deps, visited =>
    if visited.contains i then
      (some true, visited)
    else
      let v1 : NodeIdTracker := i :: visited
      if deps.isEmpty then
        (none, v1)
      else
        detectFold deps v1

/-- The loop of Node.detect_cycles over the dependency list: stop at the
first child reporting some true, otherwise thread the tracker through and
report some false at the end. -/
def detectFold : List Node → NodeIdTracker → Option Bool × NodeIdTracker
  | [], v => (some false, v)
  | d :: ds, v =>
    match d.detect_cycles v with
    | (some true, v2) => (some true, v2)
    | (some false, v2) => detectFold ds v2
    | (none, v2) => detectFold ds v2

end

/-- Detect whether the graph is a DAG or not, as in the Rust method
Node.has_cycle: run detect_cycles on an empty tracker and read its verdict,
treating none as false. -/
def Node.has_cycle (n : Node) : Bool :=
  match (n.detect_cycles []).1 with
  | some v => v
  | none => false

mutual

/-- All identifiers occurring in the tree, root included, in DFS preorder:
exactly the order in which detect_cycles tests identifiers. -/
def Node.allIds : Node → List String
  | .mk i deps => i :: allIdsFold deps

/-- Preorder identifier lists of a list of sibling subtrees, concatenated
in declared order. -/
def allIdsFold : List Node → List String
  | [] => []
  | d :: ds => d.allIds ++ allIdsFold ds

end

mutual

/-- The strict descendants of a node (every node of the subtree except the
root itself), listed in the post-order in which walk emits them: each
child is preceded by its own strict descendants. -/
def Node.walkNodes : Node → List Node
  | .mk _ deps => walkNodesFold deps

/-- Post-order node lists of a list of sibling subtrees, concatenated in
declared order, each subtree followed by its root. -/
def walkNodesFold : List Node → List Node
  | [] => []
  | d :: ds => d.walkNodes ++ [d] ++ walkNodesFold ds

end

mutual

/-- The number of nodes of the tree, root included. -/
def Node.countNodes : Node → Nat
  | .mk _ deps => 1 + countNodesFold deps

/-- Total node count of a list of sibling subtrees. -/
def countNodesFold : List Node → Nat
  | [] => 0
  | d :: ds => d.countNodes + countNodesFold ds

end

mutual

/-- Fuel-indexed execution of Node.walk: none signals fuel exhaustion,
some r the value the recursion returns.  Each recursive call consumes one
unit of fuel, so a some result certifies that the call tree is finite. -/
def walkF : Nat → Node → Option (Option (List String))
  | 0, _ => none
  | fuel + 1, .mk _ deps =>
    if deps.isEmpty then
      some none
    else
      (walkFoldF fuel deps).map some

/-- Fuel-indexed execution of the loop of Node.walk over a dependency
list. -/
def walkFoldF : Nat → List Node → Option (List String)
  | 0, _ => none
  | _ + 1, [] => some []
  | fuel + 1, d :: ds =>
    match walkF fuel d, walkFoldF fuel ds with
    | some r, some rest =>
      some ((match r with
        | some l => l
        | none => []) ++ [d.id] ++ rest)
    | _, _ => none

end

mutual

/-- Fuel-indexed execution of Node.detect_cycles: none signals fuel
exhaustion, some r the returned verdict together with the final tracker. -/
def detectF : Nat → Node → NodeIdTracker → Option (Option Bool × NodeIdTracker)
  | 0, _, _ => none
  | fuel + 1, .mk i deps, visited =>
    if visited.contains i then
      some (some true, visited)
    else
      let v1 : NodeIdTracker := i :: visited
      if deps.isEmpty then
        some (none, v1)
      else
        detectFoldF fuel deps v1

/-- Fuel-indexed execution of the loop of Node.detect_cycles over a
dependency list. -/
def detectFoldF : Nat → List Node → NodeIdTracker → Option (Option Bool × NodeIdTracker)
  | 0, _, _ => none
  | _ + 1, [], v => some (some false, v)
  | fuel + 1, d :: ds, v =>
    match detectF fuel d v with
    | none => none
    | some (some true, v2) => some (some true, v2)
    | some (some false, v2) => detectFoldF fuel ds v2
    | some (none, v2) => detectFoldF fuel ds v2

end

/-- The acyclic dependency graph built by the test helper mock_dag. -/
def mock_dag : Node :=
  Node.mk "MyLib"
    [ Node.mk "a"
        [ Node.mk "aa" []
        , Node.mk "ab" [] ]
    , Node.mk "b"
        [ Node.mk "ba" [Node.mk "baa" []]
        , Node.mk "bb" [Node.mk "bba" []]
        , Node.mk "bc" [] ]
    , Node.mk "c" [Node.mk "ca" []] ]

/-- The graph built by the test helper mock_cycle: the same shape as
mock_dag, except that bba has an extra child whose identifier b duplicates
the sibling branch b seen earlier in the traversal. -/
def mock_cycle : Node :=
  Node.mk "MyLib"
    [ Node.mk "a"
        [ Node.mk "aa" []
        , Node.mk "ab" [] ]
    , Node.mk "b"
        [ Node.mk "ba" [Node.mk "baa" []]
        , Node.mk "bb" [Node.mk "bba" [Node.mk "b" []]]
        , Node.mk "bc" [] ]
    , Node.mk "c" [Node.mk "ca" []] ]

/-- A small sample leaf node, used to instantiate quantified theorems. -/
def sampleAA : Node := Node.mk "aa" []

/-- A sample internal node with one dependency. -/
def sampleA : Node := Node.mk "a" [sampleAA]

/-- A sample root whose only dependency is sampleA. -/
def sampleRoot : Node := Node.mk "r" [sampleA]

/-- Joint induction motive on nodes characterising detect_cycles: its
verdict is some true exactly when the preorder identifier list has a
repetition or meets the incoming tracker, and otherwise the final tracker
holds exactly the old entries plus the identifiers of the subtree. -/
def DetectSpecN (n : Node) : Prop :=
  ∀ v : List String,
    ((n.detect_cycles v).1 = some true ↔
      (¬ n.allIds.Nodup ∨ ∃ a ∈ n.allIds, a ∈ v)) ∧
    ((n.detect_cycles v).1 ≠ some true →
      ∀ s, s ∈ (n.detect_cycles v).2 ↔ s ∈ n.allIds ∨ s ∈ v)

/-- The list-level companion of DetectSpecN, for the loop detectFold. -/
def DetectSpecL (ds : List Node) : Prop :=
  ∀ v : List String,
    ((detectFold ds v).1 = some true ↔
      (¬ (allIdsFold ds).Nodup ∨ ∃ a ∈ allIdsFold ds, a ∈ v)) ∧
    ((detectFold ds v).1 ≠ some true →
      ∀ s, s ∈ (detectFold ds v).2 ↔ s ∈ allIdsFold ds ∨ s ∈ v)

/-- Joint induction motive on nodes for the build-order property: at every
occurrence of a node D in the post-order listing, the strict descendants
of D form a suffix of what precedes that occurrence. -/
def SegSpecN (n : Node) : Prop :=
  ∀ l1 D l2, n.walkNodes = l1 ++ D :: l2 → D.walkNodes <:+ l1

/-- The list-level companion of SegSpecN, for walkNodesFold. -/
def SegSpecL (ds : List Node) : Prop :=
  ∀ l1 D l2, walkNodesFold ds = l1 ++ D :: l2 → D.walkNodes <:+ l1

/-- Joint induction motive for the termination theorem: some finite fuel,
and any larger amount, makes the fuel-indexed executions return exactly
the values of the total models. -/
def TotalSpecN (n : Node) : Prop :=
  ∃ f, ∀ g, f ≤ g →
    walkF g n = some n.walk ∧ ∀ v, detectF g n v = some (n.detect_cycles v)

/-- The list-level companion of TotalSpecN. -/
def TotalSpecL (ds : List Node) : Prop :=
  ∃ f, ∀ g, f ≤ g →
    walkFoldF g ds = some (walkFold ds) ∧
    ∀ v, detectFoldF g ds v = some (detectFold ds v)

theorem walkFold_eq (ds : List Node) :
    walkFold ds = (ds.map (fun c => c.get_dependancy_list ++ [c.id])).flatten := by
  induction ds with
  | nil => rfl
  | cons d ds ih =>
    simp only [walkFold, Node.get_dependancy_list, List.map_cons, List.flatten_cons, ih]

/-- C2: get_dependancy_list of a node is the concatenation, over its
children in declared order, of each child's own dependency list followed
by that child's identifier; in particular the node itself contributes no
entry to its own result. -/
theorem get_dependancy_list_post_order (n : Node) :
    n.get_dependancy_list =
      (n.deps.map (fun c => c.get_dependancy_list ++ [c.id])).flatten := by
  cases n with
  | mk i deps =>
    cases deps with
    | nil => rfl
    | cons d ds =>
      simp only [Node.get_dependancy_list, Node.walk, Node.deps, List.isEmpty_cons]
      exact walkFold_eq (d :: ds)

/-- C5: a root with an empty dependency list yields the empty build list
and no cycle, whatever its identifier. -/
theorem empty_root_no_deps_no_cycle (i : String) :
    (Node.mk i []).get_dependancy_list = [] ∧ (Node.mk i []).has_cycle = false :=
  ⟨rfl, rfl⟩

/-- C10: the dependency list does not depend on the root node's own
identifier: two roots with the same children produce the same list. -/
theorem get_dependancy_list_ignores_root_id (i1 i2 : String) (deps : List Node) :
    (Node.mk i1 deps).get_dependancy_list = (Node.mk i2 deps).get_dependancy_list := rfl

/-- C6: on the concrete acyclic test graph, the dependency list is the
expected post-order sequence and no cycle is reported. -/
theorem mock_dag_behaviour :
    mock_dag.get_dependancy_list =
      ["aa", "ab", "a", "baa", "ba", "bba", "bb", "bc", "b", "ca", "c"] ∧
    mock_dag.has_cycle = false :=
  ⟨rfl, rfl⟩

/-- C7: on the concrete test graph where bba gains an extra child with the
already-used identifier b, a cycle is reported. -/
theorem mock_cycle_behaviour : mock_cycle.has_cycle = true := rfl

theorem detect_cycles_mk (i : String) (deps : List Node) (v : NodeIdTracker) :
    Node.detect_cycles (Node.mk i deps) v =
      if v.contains i then (some true, v)
      else if deps.isEmpty then (none, i :: v)
      else detectFold deps (i :: v) := rfl

theorem cons_dup_iff (i : String) (v L : List String) (hiv : i ∉ v) :
    (¬L.Nodup ∨ ∃ a ∈ L, a ∈ i :: v) ↔
      (¬(i :: L).Nodup ∨ ∃ a ∈ i :: L, a ∈ v) := by
  simp only [List.nodup_cons, List.mem_cons, not_and_or, not_not]
  constructor
  · rintro (h | ⟨a, haL, (rfl | hav)⟩)
    · exact Or.inl (Or.inr h)
    · exact Or.inl (Or.inl haL)
    · exact Or.inr ⟨a, Or.inr haL, hav⟩
  · rintro ((hiL | h) | ⟨a, (rfl | haL), hav⟩)
    · exact Or.inr ⟨i, hiL, Or.inl rfl⟩
    · exact Or.inl h
    · exact absurd hav hiv
    · exact Or.inr ⟨a, haL, Or.inr hav⟩

theorem append_dup_iff (dA L v : List String) (hnd : dA.Nodup)
    (hdisj : ∀ a ∈ dA, a ∉ v) :
    (¬L.Nodup ∨ ∃ a ∈ L, a ∈ dA ∨ a ∈ v) ↔
      (¬(dA ++ L).Nodup ∨ ∃ a ∈ dA ++ L, a ∈ v) := by
  simp only [List.nodup_append, List.mem_append, not_and_or]
  constructor
  · rintro (h | ⟨a, haL, (had | hav)⟩)
    · exact Or.inl (Or.inr (Or.inl h))
    · exact Or.inl (Or.inr (Or.inr (fun hd => hd had haL)))
    · exact Or.inr ⟨a, Or.inr haL, hav⟩
  · rintro ((h | h | h) | ⟨a, (had | haL), hav⟩)
    · exact absurd hnd h
    · exact Or.inl h
    · right
      rw [List.disjoint_left] at h
      push_neg at h
      obtain ⟨a, had, haL⟩ := h
      exact ⟨a, haL, Or.inl had⟩
    · exact absurd hav (hdisj a had)
    · exact Or.inr ⟨a, haL, Or.inr hav⟩

theorem detectSpec_all (n : Node) : DetectSpecN n := by
  refine @Node.rec DetectSpecN DetectSpecL ?_ ?_ ?_ n
  · -- a single node: test the root identifier, then loop over the children
    intro i deps ih v
    by_cases hiv : i ∈ v
    · have hc : v.contains i = true := List.elem_iff.mpr hiv
      rw [detect_cycles_mk, if_pos hc]
      refine ⟨iff_of_true rfl (Or.inr ⟨i, by simp [Node.allIds], hiv⟩), ?_⟩
      intro h
      exact absurd rfl h
    · have hc : ¬ (v.contains i = true) := fun h => hiv (List.elem_iff.mp h)
      rw [detect_cycles_mk, if_neg hc]
      cases deps with
      | nil =>
        simp only [List.isEmpty_nil, if_pos]
        constructor
        · simp [Node.allIds, allIdsFold, hiv]
        · intro _ s
          simp [Node.allIds, allIdsFold]
      | cons d ds =>
        simp only [List.isEmpty_cons, Bool.false_eq_true, if_false]
        obtain ⟨ih1, ih2⟩ := ih (i :: v)
        constructor
        · rw [ih1]
          simpa [Node.allIds] using
            cons_dup_iff i v (allIdsFold (d :: ds)) hiv
        · intro hne s
          rw [ih2 hne s]
          simp only [Node.allIds, List.mem_cons]
          tauto
  · -- empty dependency list
    unfold DetectSpecL
    intro v
    constructor
    · simp [detectFold, allIdsFold]
    · intro _ s
      simp [detectFold, allIdsFold]
  · -- a child followed by its siblings
    intro d ds ihd ihds
    unfold DetectSpecL
    unfold DetectSpecN at ihd
    intro v
    obtain ⟨ihd1, ihd2⟩ := ihd v
    rcases hdc : d.detect_cycles v with ⟨r, v2⟩
    rw [hdc] at ihd1 ihd2
    have hfold : detectFold (d :: ds) v =
        match (r, v2) with
        | (some true, v2) => (some true, v2)
        | (some false, v2) => detectFold ds v2
        | (none, v2) => detectFold ds v2 := by
      rw [detectFold, hdc]
    rcases r with _ | b
    case none =>
      have hne : (none : Option Bool) ≠ some true := by simp
      have hnd : (d.allIds).Nodup ∧ ∀ a ∈ d.allIds, a ∉ v := by
        have := ihd1
        simp only [show ((none : Option Bool) = some true) = False by simp] at this
        constructor
        · by_contra hc
          exact absurd (this.mpr (Or.inl hc)) (by simp)
        · intro a ha hav
          exact absurd (this.mpr (Or.inr ⟨a, ha, hav⟩)) (by simp)
      have hv2 : ∀ s, s ∈ v2 ↔ s ∈ d.allIds ∨ s ∈ v := ihd2 hne
      obtain ⟨ihds1, ihds2⟩ := ihds v2
      rw [hfold]
      constructor
      · rw [ihds1]
        have := append_dup_iff d.allIds (allIdsFold ds) v hnd.1 hnd.2
        simp only [allIdsFold]
        rw [← this]
        constructor
        · rintro (h | ⟨a, ha, hav⟩)
          · exact Or.inl h
          · exact Or.inr ⟨a, ha, (hv2 a).mp hav⟩
        · rintro (h | ⟨a, ha, hav⟩)
          · exact Or.inl h
          · exact Or.inr ⟨a, ha, (hv2 a).mpr hav⟩
      · intro hne2 s
        rw [ihds2 hne2 s, hv2 s]
        simp only [allIdsFold, List.mem_append]
        tauto
    case some =>
      cases b
      case true =>
        have hdup : ¬ d.allIds.Nodup ∨ ∃ a ∈ d.allIds, a ∈ v := ihd1.mp rfl
        rw [hfold]
        constructor
        · refine iff_of_true rfl ?_
          simp only [allIdsFold]
          rcases hdup with h | ⟨a, ha, hav⟩
          · exact Or.inl fun hnd => h (hnd.sublist (List.sublist_append_left _ _))
          · exact Or.inr ⟨a, List.mem_append_left _ ha, hav⟩
        · intro h
          exact absurd rfl h
      case false =>
        have hne : (some false : Option Bool) ≠ some true := by simp
        have hnd : (d.allIds).Nodup ∧ ∀ a ∈ d.allIds, a ∉ v := by
          have := ihd1
          simp only [show ((some false : Option Bool) = some true) = False by simp] at this
          constructor
          · by_contra hc
            exact absurd (this.mpr (Or.inl hc)) (by simp)
          · intro a ha hav
            exact absurd (this.mpr (Or.inr ⟨a, ha, hav⟩)) (by simp)
        have hv2 : ∀ s, s ∈ v2 ↔ s ∈ d.allIds ∨ s ∈ v := ihd2 hne
        obtain ⟨ihds1, ihds2⟩ := ihds v2
        rw [hfold]
        constructor
        · rw [ihds1]
          have := append_dup_iff d.allIds (allIdsFold ds) v hnd.1 hnd.2
          simp only [allIdsFold]
          rw [← this]
          constructor
          · rintro (h | ⟨a, ha, hav⟩)
            · exact Or.inl h
            · exact Or.inr ⟨a, ha, (hv2 a).mp hav⟩
          · rintro (h | ⟨a, ha, hav⟩)
            · exact Or.inl h
            · exact Or.inr ⟨a, ha, (hv2 a).mpr hav⟩
        · intro hne2 s
          rw [ihds2 hne2 s, hv2 s]
          simp only [allIdsFold, List.mem_append]
          tauto

/-- C1: has_cycle returns true exactly when some identifier occurs more
than once in the depth-first (preorder) traversal of the tree, that is,
when two distinct nodes of the tree carry the same identifier; on a tree
with pairwise distinct identifiers it returns false. -/
theorem has_cycle_iff_dup_id (n : Node) :
    n.has_cycle = true ↔ ¬ n.allIds.Nodup := by
  obtain ⟨h1, _⟩ := detectSpec_all n ([] : List String)
  simp only [List.not_mem_nil, and_false, exists_false, or_false,
    exists_prop, exists_and_right] at h1
  rcases hr : (n.detect_cycles []).1 with _ | b
  · rw [hr] at h1
    have hnd : n.allIds.Nodup := by
      by_contra hc
      exact absurd (h1.mpr hc) (by simp)
    simp only [Node.has_cycle, hr]
    simp [hnd]
  · rw [hr] at h1
    cases b
    · have hnd : n.allIds.Nodup := by
        by_contra hc
        exact absurd (h1.mpr hc) (by simp)
      simp only [Node.has_cycle, hr]
      simp [hnd]
    · simp only [Node.has_cycle, hr]
      simp [h1.mp rfl]

theorem walkFold_cons (d : Node) (ds : List Node) :
    walkFold (d :: ds) = d.get_dependancy_list ++ [d.id] ++ walkFold ds := rfl

theorem segSpec_all (n : Node) : SegSpecN n := by
  refine @Node.rec SegSpecN SegSpecL ?_ ?_ ?_ n
  · intro i deps ih l1 D l2 h
    exact ih l1 D l2 h
  · intro l1 D l2 h
    simp [walkNodesFold] at h
  · intro d ds ihd ihds l1 D l2 h
    have h2 : d.walkNodes ++ (d :: walkNodesFold ds) = l1 ++ D :: l2 := by
      simpa [walkNodesFold, List.append_assoc] using h
    rcases List.append_eq_append_iff.mp h2 with ⟨a, ha1, ha2⟩ | ⟨c, hc1, hc2⟩
    · cases a with
      | nil =>
        simp only [List.append_nil] at ha1
        obtain ⟨rfl, rfl⟩ := List.cons.inj ha2
        rw [ha1]
      | cons x a =>
        rw [List.cons_append] at ha2
        obtain ⟨rfl, ha3⟩ := List.cons.inj ha2
        have hsuf : D.walkNodes <:+ a := ihds a D l2 ha3
        rw [ha1]
        exact hsuf.trans ((List.suffix_cons d a).trans (List.suffix_append _ _))
    · cases c with
      | nil =>
        simp only [List.append_nil] at hc1
        obtain ⟨rfl, rfl⟩ := List.cons.inj hc2
        rw [← hc1]
      | cons y c =>
        rw [List.cons_append] at hc2
        obtain ⟨rfl, _⟩ := List.cons.inj hc2
        exact ihd l1 D c hc1

theorem gdl_eq_map_id_walkNodes (n : Node) :
    n.get_dependancy_list = n.walkNodes.map Node.id := by
  refine @Node.rec (fun n => n.get_dependancy_list = n.walkNodes.map Node.id)
    (fun ds => walkFold ds = (walkNodesFold ds).map Node.id) ?_ ?_ ?_ n
  · intro i deps ih
    cases deps with
    | nil => rfl
    | cons d ds => exact ih
  · rfl
  · intro d ds ihd ihds
    rw [walkFold_cons, walkNodesFold]
    simp [ihd, ihds]

/-- C3: the dependency list is a valid build order: at every occurrence of
a descendant node D in the post-order listing, splitting the listing as
l1 ++ D :: l2, the output is the corresponding identifier sequence and
every strict descendant E of D already occurs among the earlier entries
l1, hence strictly before D. -/
theorem build_order_valid (n D : Node) (l1 l2 : List Node)
    (h : n.walkNodes = l1 ++ D :: l2) :
    n.get_dependancy_list = l1.map Node.id ++ D.id :: l2.map Node.id ∧
    ∀ E ∈ D.walkNodes, E ∈ l1 := by
  constructor
  · rw [gdl_eq_map_id_walkNodes, h]
    simp
  · intro E hE
    exact (segSpec_all n l1 D l2 h).subset hE

/-- Witness for C3: in the sample chain r depends on a depends on aa, the
node a occurs after l1 = the singleton aa, and the strict descendant aa of
a indeed lies in l1. -/
theorem build_order_valid_witness :
    sampleRoot.walkNodes = [sampleAA] ++ sampleA :: [] ∧
    (sampleRoot.get_dependancy_list =
        [sampleAA].map Node.id ++ sampleA.id :: ([] : List Node).map Node.id ∧
      ∀ E ∈ sampleA.walkNodes, E ∈ [sampleAA]) :=
  ⟨rfl, build_order_valid sampleRoot sampleA [sampleAA] [] rfl⟩

theorem walkNodes_length (n : Node) :
    n.walkNodes.length + 1 = n.countNodes := by
  refine @Node.rec (fun n => n.walkNodes.length + 1 = n.countNodes)
    (fun ds => (walkNodesFold ds).length = countNodesFold ds) ?_ ?_ ?_ n
  · intro i deps ih
    show (walkNodesFold deps).length + 1 = 1 + countNodesFold deps
    omega
  · rfl
  · intro d ds ihd ihds
    show (d.walkNodes ++ [d] ++ walkNodesFold ds).length =
      d.countNodes + countNodesFold ds
    simp only [List.length_append, List.length_singleton]
    omega

theorem gdl_length_eq_walkNodes_length (n : Node) :
    n.get_dependancy_list.length = n.walkNodes.length := by
  rw [gdl_eq_map_id_walkNodes, List.length_map]

/-- C9: on every finite tree, duplicated identifiers or not, the length of
the dependency list equals the number of descendant nodes of the root,
the root itself excluded: every descendant contributes exactly one
entry. -/
theorem gdl_length_descendants (n : Node) :
    n.get_dependancy_list.length = n.countNodes - 1 := by
  have h1 := walkNodes_length n
  have h2 := gdl_length_eq_walkNodes_length n
  omega

/-- C4: on a tree with pairwise distinct identifiers, the length of the
dependency list equals the number of descendant nodes of the root, the
root itself excluded. -/
theorem gdl_length_descendants_of_nodup (n : Node) (_hnd : n.allIds.Nodup) :
    n.get_dependancy_list.length = n.countNodes - 1 := by
  have h1 := walkNodes_length n
  have h2 := gdl_length_eq_walkNodes_length n
  omega

/-- Witness for C4: the acyclic test graph has distinct identifiers and
its dependency list length is its node count minus one. -/
theorem gdl_length_descendants_witness :
    mock_dag.allIds.Nodup ∧
    mock_dag.get_dependancy_list.length = mock_dag.countNodes - 1 :=
  ⟨by decide, gdl_length_descendants_of_nodup mock_dag (by decide)⟩

theorem totalSpec_all (n : Node) : TotalSpecN n := by
  refine @Node.rec TotalSpecN TotalSpecL ?_ ?_ ?_ n
  · intro i deps ih
    obtain ⟨f, hf⟩ := ih
    refine ⟨f + 1, ?_⟩
    intro g hg
    cases g with
    | zero => omega
    | succ g =>
      obtain ⟨hw, hd⟩ := hf g (by omega)
      constructor
      · cases hdeps : deps.isEmpty <;>
          simp [walkF, Node.walk, hdeps, hw]
      · intro v
        by_cases hiv : i ∈ v
        · simp [detectF, Node.detect_cycles, hiv]
        · cases hdeps : deps.isEmpty <;>
            simp [detectF, Node.detect_cycles, hiv, hdeps, hd]
  · refine ⟨1, ?_⟩
    intro g hg
    cases g with
    | zero => omega
    | succ g => exact ⟨rfl, fun v => rfl⟩
  · intro d ds ihd ihds
    obtain ⟨f1, h1⟩ := ihd
    obtain ⟨f2, h2⟩ := ihds
    refine ⟨max f1 f2 + 1, ?_⟩
    intro g hg
    cases g with
    | zero => omega
    | succ g =>
      have hm : max f1 f2 ≤ g := Nat.succ_le_succ_iff.mp hg
      obtain ⟨hw1, hd1⟩ := h1 g (le_trans (le_max_left _ _) hm)
      obtain ⟨hw2, hd2⟩ := h2 g (le_trans (le_max_right _ _) hm)
      constructor
      · simp only [walkFoldF, hw1, hw2, walkFold]
      · intro v
        simp only [detectFoldF, hd1 v]
        rcases hdc : d.detect_cycles v with ⟨r, v2⟩
        rcases r with _ | b
        · simp [detectFold, hdc, hd2 v2]
        · cases b <;> simp [detectFold, hdc, hd2 v2]

/-- C8: both public operations are total over finite trees: for every tree
some finite amount of fuel makes the fuel-indexed executions of walk and
of detect_cycles halt, returning exactly the values of the total models
from which get_dependancy_list and has_cycle read their answers. -/
theorem walk_detect_total (n : Node) :
    ∃ fuel, walkF fuel n = some n.walk ∧
      detectF fuel n [] = some (n.detect_cycles []) := by
  obtain ⟨f, hf⟩ := totalSpec_all n
  obtain ⟨hw, hd⟩ := hf f le_rfl
  exact ⟨f, hw, hd []⟩
